import Mathlib

/-!
# Verification of the ARIMA grid-search notebook

A shallow embedding of the grid-search tutorial code
(`evaluate_arima_model`, `evaluate_models`, the shampoo-sales run and the
XGBoost thread-count timing loop), together with proofs of the spec's
testable properties.

The external fitting library (statsmodels ARIMA) is modelled as an oracle
`fit : List ℚ → Order → Option ℚ` that, given the current history and the
order `(p, d, q)`, either returns the one-step forecast or fails (`none`,
standing for a raised exception).  Numeric observations are modelled as
rationals; the two places where the Python code's floating-point behaviour
is observable — the constant `0.66` in the train/test split, and
`astype('float32')` — are modelled exactly as IEEE-754 roundings expressed
over ℚ.
-/
namespace GridSearch

/-- An ARIMA order: the `(p, d, q)` triple. -/
abbrev Order := ℕ × ℕ × ℕ

/-! ## The train/test split: `int(len(X) * 0.66)`

Python evaluates `len(X) * 0.66` in IEEE-754 binary64.  The literal `0.66`
denotes the double `5944751508129055 / 2^53` (the nearest double to 66/100),
`len(X)` converts exactly for every realistic length, the product is rounded
once to nearest-even, and `int(...)` truncates toward zero.  We model this
exactly with natural-number arithmetic. -/
/-- Fuelled base-2 logarithm: `log2fuel f n` is `⌊log₂ n⌋` for `1 ≤ n < 2^f`
(and `0` on `n = 0`).  Structural recursion on the fuel keeps it
kernel-reducible. -/
def log2fuel : ℕ → ℕ → ℕ
  | 0, _ => 0
  | f + 1, n => if n < 2 then 0 else log2fuel f (n / 2) + 1

/-- The significand of the binary64 literal `0.66`: the value of the double
is `c66sig / 2^53`. -/
def c66sig : ℕ := 5944751508129055

/-- `pyTrainSize n` is Python's `int(n * 0.66)`: the exact product
`n * c66sig / 2^53` is rounded to 53 significant bits (round to nearest,
ties to even) and the resulting double is truncated toward zero.  Valid for
`n < 2^75` (fuel 128 covers the bit length of `n * c66sig`). -/
def pyTrainSize (n : ℕ) : ℕ :=
  let a := n * c66sig
  let k := log2fuel 128 a
  if k ≤ 52 then
    a / 2 ^ 53
  else
    let sh := k - 52
    let q := a / 2 ^ sh
    let r := a % 2 ^ sh
    let q2 :=
      if 2 * r < 2 ^ sh then q
      else if 2 ^ sh < 2 * r then q + 1
      else if q % 2 = 0 then q else q + 1
    q2 * 2 ^ sh / 2 ^ 53

/-- The training prefix `X[0:train_size]`. -/
def trainOf (X : List ℚ) : List ℚ := X.take (pyTrainSize X.length)

/-- The held-out suffix `X[train_size:]`. -/
def testOf (X : List ℚ) : List ℚ := X.drop (pyTrainSize X.length)

/-! ## `mean_squared_error`

sklearn's `mean_squared_error` requires the two arrays to have equal,
nonzero length (it raises otherwise) and returns the mean of the squared
differences. -/
/-- `mean_squared_error y_true y_pred`, `none` modelling a raised error. -/
def mean_squared_error (y_true y_pred : List ℚ) : Option ℚ :=
  if y_true.length = y_pred.length ∧ y_true ≠ [] then
    some ((List.zip y_true y_pred).foldl (fun s p => s + (p.1 - p.2) ^ 2) 0 /
      (y_true.length : ℚ))
  else none

/-! ## `evaluate_arima_model` -/
/-- The fitting oracle: history and order to one-step forecast, `none` for a
raised fitting exception. -/
abbrev FitOracle := List ℚ → Order → Option ℚ

/-- The walk-forward loop of `evaluate_arima_model`: the state is the pair
`(history, predictions)`; each step fits on the current history, records the
forecast, then appends the true observation.  A fitting failure aborts the
whole evaluation (the exception propagates). -/
def arimaSteps (fit : FitOracle) (order : Order) :
    List ℚ → List ℚ × List ℚ → Option (List ℚ × List ℚ)
  | [], st => some st
  | x :: rest, st =>
    match fit st.1 order with
    | none => none
    | some yhat => arimaSteps fit order rest (st.1 ++ [x], st.2 ++ [yhat])

/-- `evaluate_arima_model(X, arima_order)`: split, walk forward through the
test portion, and return the mean squared error. -/
def evaluate_arima_model (fit : FitOracle) (X : List ℚ) (arima_order : Order) :
    Option ℚ :=
  let train := trainOf X
  let test := testOf X
  (arimaSteps fit arima_order test (train, [])).bind fun st =>
    mean_squared_error test st.2

/-- The prediction list accumulated by `evaluate_arima_model`. -/
def predictionsOf (fit : FitOracle) (X : List ℚ) (arima_order : Order) :
    Option (List ℚ) :=
  (arimaSteps fit arima_order (testOf X) (trainOf X, [])).map fun st => st.2

/-! ## `astype('float32')`

`evaluate_models` first rebinds `dataset` to `dataset.astype('float32')`, a
fresh array whose entries are the old ones rounded to IEEE-754 binary32.  We
model the rounding exactly over ℚ (round to nearest, ties to even, 24-bit
significand; the data never reaches the subnormal or overflow ranges). -/
/-- Round a rational to the nearest integer, ties to even.  The floor is
computed as Euclidean division of the numerator by the (positive)
denominator. -/
def rnEven (s : ℚ) : ℤ :=
  let f : ℤ := s.num.ediv (s.den : ℤ)
  let r := s - (f : ℚ)
  if r < 1 / 2 then f
  else if 1 / 2 < r then f + 1
  else if f % 2 = 0 then f else f + 1

/-- Rounding to binary32: nearest representable, ties to even (for inputs
with numerator and denominator below `2^128`, which covers all data the
notebook handles; subnormal and overflow ranges are never reached).  The
binade exponent `e` (with `2^e ≤ |x| < 2^(e+1)`) is found from the bit
lengths of numerator and denominator; the significand `|x| / 2^(e-23)` is
rounded to an integer, ties to even.  Only ℕ-exponent powers are used so
that the definition evaluates by kernel reduction. -/
def roundF32 (x : ℚ) : ℚ :=
  if x = 0 then 0
  else
    let n0 := x.num.natAbs
    let d0 := x.den
    let k1 := log2fuel 128 n0
    let k2 := log2fuel 128 d0
    let e : ℤ :=
      if 2 ^ k1 * d0 ≤ n0 * 2 ^ k2 then (k1 : ℤ) - k2 else (k1 : ℤ) - k2 - 1
    let t : ℤ := e - 23
    let sAbs : ℚ :=
      if 0 ≤ t then (n0 : ℚ) / ((d0 : ℚ) * ((2 ^ t.toNat : ℕ) : ℚ))
      else (n0 : ℚ) * ((2 ^ (-t).toNat : ℕ) : ℚ) / (d0 : ℚ)
    let m := rnEven sAbs
    let mm : ℚ :=
      if 0 ≤ t then (m : ℚ) * ((2 ^ t.toNat : ℕ) : ℚ)
      else (m : ℚ) / ((2 ^ (-t).toNat : ℕ) : ℚ)
    if x < 0 then -mm else mm

/-! ## `evaluate_models` -/
/-- The best-so-far accumulator: `(best_score, best_cfg)`, starting at
`(float("inf"), None)`.  `⊤ : WithTop ℚ` models `float("inf")`. -/
abbrev BestAcc := WithTop ℚ × Option Order

/-- One update of the accumulator by a successful evaluation:
`if mse < best_score: best_score, best_cfg = mse, order`. -/
def bestStep (acc : BestAcc) (x : Order × ℚ) : BestAcc :=
  if (x.2 : WithTop ℚ) < acc.1 then ((x.2 : WithTop ℚ), some x.1) else acc

/-- Fold of `bestStep` from the initial accumulator: the selection the
driver performs over the successfully evaluated `(order, mse)` pairs. -/
def bestOf (l : List (Order × ℚ)) : BestAcc :=
  l.foldl bestStep ((⊤ : WithTop ℚ), none)

/-- The grid: Cartesian product of the three candidate collections, `p`
outermost, then `d`, then `q`. -/
def cartesian (p_values d_values q_values : List ℕ) : List Order :=
  p_values.flatMap fun p =>
    d_values.flatMap fun d =>
      q_values.map fun q => (p, d, q)

/-- The body of the driver's innermost loop: try one order; on success
update the accumulator and print the `ARIMA... MSE=...` line (modelled as
appending the `(order, mse)` pair to the output trace); on failure leave
both untouched. -/
def modelsStep (fit : FitOracle) (dataset : List ℚ)
    (st : BestAcc × List (Order × ℚ)) (order : Order) :
    BestAcc × List (Order × ℚ) :=
  match evaluate_arima_model fit dataset order with
  | none => st
  | some mse => (bestStep st.1 (order, mse), st.2 ++ [(order, mse)])

/-- `evaluate_models(dataset, p_values, d_values, q_values)`: coerce the
dataset to float32, sweep the grid, and return the final accumulator
together with the trace of per-configuration output lines. -/
def evaluate_models (fit : FitOracle) (dataset : List ℚ)
    (p_values d_values q_values : List ℕ) : BestAcc × List (Order × ℚ) :=
  let ds := dataset.map roundF32
  (cartesian p_values d_values q_values).foldl (modelsStep fit ds)
    (((⊤ : WithTop ℚ), none), [])

/-- The successfully evaluated `(order, mse)` pairs, in enumeration order. -/
def successes (fit : FitOracle) (dataset : List ℚ)
    (p_values d_values q_values : List ℕ) : List (Order × ℚ) :=
  (cartesian p_values d_values q_values).filterMap fun o =>
    (evaluate_arima_model fit (dataset.map roundF32) o).map fun e => (o, e)

/-! ## Spec-side restatement of the evaluator (for the refinement claim)

The spec describes the evaluator as: the `t`-th one-step forecast is made
from the training prefix plus the `t` held-out observations already
consumed, and the returned scalar is the mean squared error between the
forecast list and the held-out values.  `oneStepForecasts` renders that
sentence directly. -/
/-- The list of one-step forecasts as the spec words them: prediction `t`
comes from fitting on `train ++ test.take t`. -/
def oneStepForecasts (fit : FitOracle) (order : Order) (train test : List ℚ) :
    Option (List ℚ) :=
  (List.range test.length).mapM fun t => fit (train ++ test.take t) order

/-- `Modelled from the spec:` the evaluator as section 4.1 describes it —
walk the held-out portion, forecast from all observations seen so far,
then return the mean squared error of the forecasts against the held-out
values. -/
def evaluate_arima_spec (fit : FitOracle) (X : List ℚ) (arima_order : Order) :
    Option ℚ :=
  (oneStepForecasts fit arima_order (trainOf X) (testOf X)).bind fun preds =>
    mean_squared_error (testOf X) preds

/-- The final `print('Best ARIMA%s MSE=%.3f' % (best_cfg, best_score))`
line.  Python renders `None` via `%s` as the string `None` and
`float("inf")` via `%.3f` as `inf`, so the line is produced in every case,
including the all-configurations-failed one. -/
def summaryLine (acc : BestAcc) : String :=
  "Best ARIMA" ++
    (match acc.2 with
     | none => "None"
     | some (p, d, q) =>
       "(" ++ Nat.repr p ++ ", " ++ Nat.repr d ++ ", " ++ Nat.repr q ++ ")") ++
    " MSE=" ++
    (match acc.1 with
     | ⊤ => "inf"
     | (q : ℚ) =>
       let m := rnEven (q * 1000)
       (if m < 0 then "-" else "") ++ Int.repr (m.natAbs / 1000) ++ "." ++
         Int.repr (m.natAbs % 1000))

/-! ## The documented shampoo-sales run

The executed output cell of the notebook records one `ARIMA(p, d, q)
MSE=...` line per configuration that evaluated successfully, and the final
`Best ARIMA(4, 2, 1) MSE=4694.872` line.  `shampooRunResults` transcribes
those per-configuration `(order, mse)` pairs in printed order. -/
/-- The successful `(order, mse)` pairs of the documented shampoo-sales
grid search, in printed order (MSE values as printed, to three decimals). -/
def shampooRunResults : List (Order × ℚ) :=
  [((0, 0, 0), 52425268 / 1000), ((0, 0, 1), 38145259 / 1000),
   ((0, 0, 2), 23989598 / 1000), ((0, 1, 0), 18003173 / 1000),
   ((0, 1, 1), 9558166 / 1000), ((0, 2, 0), 67339808 / 1000),
   ((0, 2, 1), 18321891 / 1000), ((1, 0, 0), 23112826 / 1000),
   ((1, 1, 0), 7121367 / 1000), ((1, 1, 1), 7003683 / 1000),
   ((1, 2, 0), 18608016 / 1000), ((2, 1, 0), 5689931 / 1000),
   ((2, 1, 1), 7759704 / 1000), ((2, 2, 0), 9860940 / 1000),
   ((4, 1, 0), 6649594 / 1000), ((4, 1, 1), 6796295 / 1000),
   ((4, 2, 0), 7596329 / 1000), ((4, 2, 1), 4694872 / 1000),
   ((6, 1, 0), 6810082 / 1000), ((6, 2, 0), 6261123 / 1000),
   ((8, 1, 0), 6579580 / 1000)]

/-! ## The XGBoost thread-count timing loop

The loop reads the wall clock twice per iteration; we model the clock as a
stream of readings `clock : ℕ → ℚ`, iteration `i` consuming readings `2 i`
(before the fit) and `2 i + 1` (after it).  Python lists are heterogeneous,
so the recorded entries are modelled by `PyVal`, which distinguishes a bare
duration from a `(count, duration)` tuple. -/
/-- A Python value that could be appended to the `results` list: a bare
float or an `(int, float)` tuple. -/
inductive PyVal where
  | num (q : ℚ)
  | tup (n : ℕ) (q : ℚ)
deriving DecidableEq

/-- The timing loop, iterating with index `i`: per thread count, read the
clock, fit, read the clock again, `print(n, elapsed)` (second component of
the result) and `results.append(elapsed)` (first component). -/
def threadSweepAux (clock : ℕ → ℚ) : ℕ → List ℕ → List PyVal × List (ℕ × ℚ)
  | _, [] => ([], [])
  | i, n :: rest =>
    let start := clock (2 * i)
    let elapsed := clock (2 * i + 1) - start
    let (rs, ps) := threadSweepAux clock (i + 1) rest
    (PyVal.num elapsed :: rs, (n, elapsed) :: ps)

/-- The `num_threads` sweep: `(results, printed lines)`. -/
def threadSweep (clock : ℕ → ℚ) (num_threads : List ℕ) :
    List PyVal × List (ℕ × ℚ) :=
  threadSweepAux clock 0 num_threads

/-! ## A heap model for mutation and determinism claims

Python lists and numpy arrays are mutable buffers.  To talk about (absence
of) mutation of the caller's series, we re-run the two functions over an
explicit store of buffers: references are indices into `bufs`, `history =
[x for x in train]` and `predictions = list()` allocate fresh buffers,
`.append` mutates in place, and `dataset.astype('float32')` allocates a
fresh converted copy and rebinds the local name. -/
/-- A store of numeric buffers; a reference is an index into `bufs`. -/
structure Store where
  bufs : List (List ℚ)

/-- Dereference a buffer (out-of-range reads give `[]`; all source reads
are in range). -/
def Store.getB (σ : Store) (r : ℕ) : List ℚ := σ.bufs.getD r []

/-- Allocate a fresh buffer at the next free index. -/
def Store.alloc (σ : Store) (v : List ℚ) : Store := ⟨σ.bufs ++ [v]⟩

/-- `buffer.append(x)`: in-place mutation of buffer `r`. -/
def Store.push (σ : Store) (r : ℕ) (x : ℚ) : Store :=
  ⟨σ.bufs.set r (σ.bufs.getD r [] ++ [x])⟩

/-- The walk-forward loop over the store: fit on the history buffer `hr`,
append the forecast to the predictions buffer `pr`, then append the true
observation to `hr`.  The boolean records whether every fit succeeded. -/
def arimaHeapLoop (fit : FitOracle) (order : Order) (hr pr : ℕ) :
    List ℚ → Store → Store × Bool
  | [], σ => (σ, true)
  | x :: rest, σ =>
    match fit (σ.getB hr) order with
    | none => (σ, false)
    | some yhat =>
      arimaHeapLoop fit order hr pr rest ((σ.push pr yhat).push hr x)

/-- `evaluate_arima_model` over the store: the caller's series lives in
buffer `xr`; `history` and `predictions` are freshly allocated. -/
def evaluate_arima_heap (fit : FitOracle) (σ : Store) (xr : ℕ)
    (order : Order) : Store × Option ℚ :=
  let X := σ.getB xr
  let train := X.take (pyTrainSize X.length)
  let test := X.drop (pyTrainSize X.length)
  let hr := σ.bufs.length
  let σ1 := σ.alloc train
  let pr := σ1.bufs.length
  let σ2 := σ1.alloc []
  match arimaHeapLoop fit order hr pr test σ2 with
  | (σ3, false) => (σ3, none)
  | (σ3, true) => (σ3, mean_squared_error test (σ3.getB pr))

/-- `evaluate_models` over the store: `dataset = dataset.astype('float32')`
allocates a fresh converted copy and rebinds the local name to it; the
caller's buffer `dr` is never written. -/
def evaluate_models_heap (fit : FitOracle) (σ : Store) (dr : ℕ)
    (p_values d_values q_values : List ℕ) :
    Store × BestAcc × List (Order × ℚ) :=
  let conv := (σ.getB dr).map roundF32
  let dr2 := σ.bufs.length
  let σ1 := σ.alloc conv
  (cartesian p_values d_values q_values).foldl
    (fun st o =>
      match evaluate_arima_heap fit st.1 dr2 o with
      | (σn, none) => (σn, st.2)
      | (σn, some mse) => (σn, bestStep st.2.1 (o, mse), st.2.2 ++ [(o, mse)]))
    (σ1, ((⊤ : WithTop ℚ), none), [])

/-- A fitting oracle that always forecasts 2. -/
def constFit : FitOracle := fun _ _ => some 2

/-- A fitting oracle that always fails. -/
def noneFit : FitOracle := fun _ _ => none

/-! ## Theorems -/

theorem log2fuel_spec (f : ℕ) : ∀ n, 1 ≤ n → n < 2 ^ f →
    2 ^ log2fuel f n ≤ n ∧ n < 2 ^ (log2fuel f n + 1) := by
  induction f with
  | zero => intro n h1 h2; simp at h2; omega
  | succ f ih =>
    intro n h1 h2
    rw [log2fuel]
    by_cases hn : n < 2
    · simp only [if_pos hn]
      constructor
      · simpa using h1
      · simpa using hn
    · simp only [if_neg hn]
      have h12 : 1 ≤ n / 2 := by omega
      have h22 : n / 2 < 2 ^ f := by
        have h2' : n < 2 * 2 ^ f := by
          have : (2 : ℕ) ^ (f + 1) = 2 * 2 ^ f := by ring
          omega
        omega
      obtain ⟨l, r⟩ := ih (n / 2) h12 h22
      have e1 : (2 : ℕ) ^ (log2fuel f (n / 2) + 1) = 2 ^ log2fuel f (n / 2) * 2 := by
        ring
      have e2 : (2 : ℕ) ^ (log2fuel f (n / 2) + 1 + 1) =
          2 ^ log2fuel f (n / 2) * 2 * 2 := by ring
      constructor
      · rw [e1]; omega
      · rw [e2, ← e1]; omega

theorem rnEven_intCast (m : ℤ) : rnEven (m : ℚ) = m := by
  unfold rnEven
  rw [Rat.num_intCast, Rat.den_intCast]
  have h1 : m.ediv (((1 : ℕ) : ℤ)) = m := by
    rw [Nat.cast_one, show m.ediv 1 = m / 1 from rfl, Int.ediv_one]
  rw [h1]
  norm_num

theorem roundF32_natCast (n : ℕ) (h1 : 1 ≤ n) (h2 : n < 2 ^ 24) :
    roundF32 (n : ℚ) = n := by
  have hx0 : ((n : ℚ)) ≠ 0 := by exact_mod_cast (by omega : n ≠ 0)
  have hxpos : (0 : ℚ) < (n : ℚ) := by exact_mod_cast (by omega : 0 < n)
  unfold roundF32
  rw [if_neg hx0]
  simp only [Rat.num_natCast, Rat.den_natCast, Int.natAbs_ofNat]
  have hk2 : log2fuel 128 1 = 0 := by decide
  obtain ⟨hl, hr⟩ := log2fuel_spec 128 n h1 (h2.trans (by norm_num))
  set k1 := log2fuel 128 n with hk1def
  have hcond : 2 ^ k1 * 1 ≤ n * 2 ^ log2fuel 128 1 := by
    rw [hk2]; simpa using hl
  rw [if_pos hcond, hk2]
  have hk1lt : k1 < 24 := by
    by_contra hge
    push_neg at hge
    have : (2 : ℕ) ^ 24 ≤ 2 ^ k1 := Nat.pow_le_pow_right (by norm_num) hge
    omega
  split_ifs with hneg hc hc
  · exact absurd hneg (not_lt.mpr hxpos.le)
  · exact absurd hneg (not_lt.mpr hxpos.le)
  · -- k1 = 23: the scale is 2^0 = 1
    have ht0 : ((k1 : ℤ) - (0 : ℕ) - 23).toNat = 0 := by omega
    rw [ht0]
    have harg : ((n : ℚ) / (((1 : ℕ) : ℚ) * (((2 : ℕ) ^ (0 : ℕ) : ℕ) : ℚ))) =
        (((n : ℤ)) : ℚ) := by push_cast; ring
    rw [harg, rnEven_intCast]
    push_cast
    ring
  · -- k1 < 23: the scale is 2^(23 - k1) in the denominator
    set w := (-((k1 : ℤ) - ((0 : ℕ) : ℤ) - 23)).toNat with hwdef
    have harg : ((n : ℚ) * (((2 : ℕ) ^ w : ℕ) : ℚ) / ((1 : ℕ) : ℚ)) =
        (((n * 2 ^ w : ℕ) : ℤ) : ℚ) := by push_cast; ring
    rw [harg, rnEven_intCast]
    have h2w : (((2 ^ w : ℕ) : ℚ)) ≠ 0 := by positivity
    push_cast
    field_simp

/-- `roundF32` fixes the small integer literals used in concrete runs. -/
theorem roundF32_ofNat (n : ℕ) (h1 : 1 ≤ n) (h2 : n < 2 ^ 24) :
    roundF32 ((n : ℚ)) = (n : ℚ) := roundF32_natCast n h1 h2

theorem mapM_map_option {α β γ : Type} (g : α → β) (f : β → Option γ)
    (l : List α) : (l.map g).mapM f = l.mapM fun a => f (g a) := by
  induction l with
  | nil => rfl
  | cons x l ih => rw [List.map_cons, List.mapM_cons, List.mapM_cons, ih]

theorem oneStepForecasts_cons (fit : FitOracle) (order : Order)
    (h0 : List ℚ) (x : ℚ) (rest : List ℚ) :
    oneStepForecasts fit order h0 (x :: rest) =
      (fit h0 order).bind fun y =>
        (oneStepForecasts fit order (h0 ++ [x]) rest).map fun ys => y :: ys := by
  unfold oneStepForecasts
  rw [List.length_cons, List.range_succ_eq_map, List.mapM_cons, mapM_map_option]
  have harg : (fun t => fit (h0 ++ (x :: rest).take (Nat.succ t)) order) =
      fun t => fit ((h0 ++ [x]) ++ rest.take t) order := by
    funext t
    simp [List.take_succ_cons, List.append_assoc, List.singleton_append]
  simp only [List.take_zero, List.append_nil, harg]
  cases fit h0 order with
  | none => simp
  | some y =>
    cases (List.range rest.length).mapM
        (fun t => fit ((h0 ++ [x]) ++ rest.take t) order) with
    | none => simp
    | some ys => simp

theorem arimaSteps_eq_forecasts (fit : FitOracle) (order : Order) :
    ∀ (test h0 p0 : List ℚ),
      arimaSteps fit order test (h0, p0) =
        (oneStepForecasts fit order h0 test).map fun ps =>
          (h0 ++ test, p0 ++ ps) := by
  intro test
  induction test with
  | nil =>
    intro h0 p0
    rw [show oneStepForecasts fit order h0 [] = some [] from rfl]
    simp [arimaSteps]
  | cons x rest ih =>
    intro h0 p0
    rw [arimaSteps, oneStepForecasts_cons]
    cases hf : fit h0 order with
    | none => simp
    | some y =>
      dsimp only
      rw [ih (h0 ++ [x]) (p0 ++ [y])]
      cases oneStepForecasts fit order (h0 ++ [x]) rest with
      | none => simp
      | some ps => simp [List.append_assoc]

/-- The evaluator agrees with the spec's description: same forecasts, same
mean-squared-error result. -/
theorem evaluate_arima_model_eq_spec (fit : FitOracle) (X : List ℚ)
    (arima_order : Order) :
    evaluate_arima_model fit X arima_order =
      evaluate_arima_spec fit X arima_order ∧
    predictionsOf fit X arima_order =
      oneStepForecasts fit arima_order (trainOf X) (testOf X) := by
  unfold evaluate_arima_model evaluate_arima_spec predictionsOf
  dsimp only
  rw [arimaSteps_eq_forecasts]
  cases oneStepForecasts fit arima_order (trainOf X) (testOf X) with
  | none => simp
  | some ps => simp

/-! ## Characterisation of the best-so-far fold -/
/-- What a `foldl` of `bestStep` can produce: either the accumulator
survives untouched and every error seen is at least as large, or some entry
won — the first one achieving the final score, strictly better than every
entry before it and at least as good as every entry after it. -/
theorem foldl_bestStep_char (l : List (Order × ℚ)) :
    ∀ (a : BestAcc) (c : Order) (e : ℚ),
      l.foldl bestStep a = ((e : WithTop ℚ), some c) →
      (a = ((e : WithTop ℚ), some c) ∧ ∀ x ∈ l, e ≤ x.2) ∨
      ((e : WithTop ℚ) < a.1 ∧ ∃ l1 l2, l = l1 ++ (c, e) :: l2 ∧
        (∀ x ∈ l1, e < x.2) ∧ (∀ x ∈ l2, e ≤ x.2)) := by
  induction l with
  | nil =>
    intro a c e h
    left
    exact ⟨h, by simp⟩
  | cons x l ih =>
    intro a c e h
    rw [List.foldl_cons] at h
    by_cases hx : (x.2 : WithTop ℚ) < a.1
    · have hstep : bestStep a x = ((x.2 : WithTop ℚ), some x.1) := by
        simp [bestStep, hx]
      rcases ih (bestStep a x) c e h with ⟨heq, hle⟩ | ⟨hlt, l1, l2, hsplit, hpre, hpost⟩
      · -- the updated accumulator survives: x is the winner, at the head
        rw [hstep] at heq
        have hex : (e : WithTop ℚ) = (x.2 : WithTop ℚ) ∧ some c = some x.1 := by
          constructor
          · exact (congrArg Prod.fst heq).symm
          · exact (congrArg Prod.snd heq).symm
        have he : e = x.2 := by exact_mod_cast hex.1
        have hc : c = x.1 := by
          have := hex.2
          injection this
        right
        refine ⟨?_, [], l, ?_, by simp, ?_⟩
        · rw [he]; exact hx
        · simp [hc, he]
        · intro y hy
          exact hle y hy
      · -- the winner is further inside l
        right
        rw [hstep] at hlt
        have hlt' : (e : WithTop ℚ) < (x.2 : WithTop ℚ) := hlt
        have hex : e < x.2 := by exact_mod_cast hlt'
        refine ⟨lt_trans hlt' hx, x :: l1, l2, by rw [hsplit, List.cons_append], ?_, hpost⟩
        intro y hy
        rcases List.mem_cons.mp hy with hy | hy
        · rw [hy]; exact hex
        · exact hpre y hy
    · have hstep : bestStep a x = a := by
        simp [bestStep, hx]
      rw [hstep] at h
      rcases ih a c e h with ⟨heq, hle⟩ | ⟨hlt, l1, l2, hsplit, hpre, hpost⟩
      · -- still untouched; x must also be no better than the final score
        left
        refine ⟨heq, ?_⟩
        intro y hy
        rcases List.mem_cons.mp hy with hy | hy
        · rw [hy]
          have ha1 : a.1 = (e : WithTop ℚ) := congrArg Prod.fst heq
          rw [ha1] at hx
          exact_mod_cast not_lt.mp hx
        · exact hle y hy
      · -- winner inside l; x sits in the strict prefix
        right
        refine ⟨hlt, x :: l1, l2, by rw [hsplit, List.cons_append], ?_, hpost⟩
        intro y hy
        rcases List.mem_cons.mp hy with hy | hy
        · rw [hy]
          have : a.1 ≤ (x.2 : WithTop ℚ) := not_lt.mp hx
          exact_mod_cast lt_of_lt_of_le hlt this
        · exact hpre y hy

/-- The driver's fold is the best-so-far fold over the successful
evaluations, and the output trace lists exactly those successes. -/
theorem models_foldl (fit : FitOracle) (ds : List ℚ) :
    ∀ (grid : List Order) (acc : BestAcc) (out : List (Order × ℚ)),
      grid.foldl (modelsStep fit ds) (acc, out) =
        ((grid.filterMap fun o =>
            (evaluate_arima_model fit ds o).map fun e => (o, e)).foldl
          bestStep acc,
         out ++ grid.filterMap fun o =>
            (evaluate_arima_model fit ds o).map fun e => (o, e)) := by
  intro grid
  induction grid with
  | nil => intro acc out; simp
  | cons o rest ih =>
    intro acc out
    rw [List.foldl_cons, List.filterMap_cons]
    cases hev : evaluate_arima_model fit ds o with
    | none =>
      rw [show modelsStep fit ds (acc, out) o = (acc, out) from by
        simp [modelsStep, hev]]
      simp [ih]
    | some e =>
      rw [show modelsStep fit ds (acc, out) o =
          (bestStep acc (o, e), out ++ [(o, e)]) from by
        simp [modelsStep, hev]]
      rw [ih]
      simp

/-! ## Failure characterisation helpers -/
theorem mapM_option_eq_none_iff {α β : Type} (f : α → Option β) :
    ∀ l : List α, l.mapM f = none ↔ ∃ a ∈ l, f a = none := by
  intro l
  induction l with
  | nil => rw [List.mapM_nil]; simp
  | cons x l ih =>
    rw [List.mapM_cons]
    cases hx : f x with
    | none => simp [hx]
    | some b =>
      cases hl : l.mapM f with
      | none => simp [hl, ih.mp hl, hx]
      | some bs =>
        have hne : ¬∃ a ∈ l, f a = none := fun hc => by
          rw [ih.mpr hc] at hl
          cases hl
        simp [hx, hl, hne]

theorem mapM_option_length {α β : Type} (f : α → Option β) :
    ∀ (l : List α) (bs : List β), l.mapM f = some bs → bs.length = l.length := by
  intro l
  induction l with
  | nil => intro bs h; rw [List.mapM_nil] at h; cases h; rfl
  | cons x l ih =>
    intro bs h
    rw [List.mapM_cons] at h
    cases hx : f x with
    | none => rw [hx] at h; cases h
    | some b =>
      rw [hx] at h
      cases hl : l.mapM f with
      | none => rw [hl] at h; cases h
      | some cs =>
        rw [hl] at h
        have : b :: cs = bs := by
          simpa using h
        rw [← this, List.length_cons, ih cs hl]
        rfl

theorem oneStepForecasts_eq_none_iff (fit : FitOracle) (order : Order)
    (train test : List ℚ) :
    oneStepForecasts fit order train test = none ↔
      ∃ t < test.length, fit (train ++ test.take t) order = none := by
  unfold oneStepForecasts
  rw [mapM_option_eq_none_iff]
  constructor
  · rintro ⟨t, ht, hf⟩
    exact ⟨t, List.mem_range.mp ht, hf⟩
  · rintro ⟨t, ht, hf⟩
    exact ⟨t, List.mem_range.mpr ht, hf⟩

theorem oneStepForecasts_length (fit : FitOracle) (order : Order)
    (train test ps : List ℚ) (h : oneStepForecasts fit order train test = some ps) :
    ps.length = test.length := by
  unfold oneStepForecasts at h
  have := mapM_option_length _ _ _ h
  simpa using this

/-! ## Claim theorems -/
/-- C1.  The configuration reported by `evaluate_models` is the first-seen
minimizer: the output trace lists exactly the successfully evaluated
configurations in Cartesian-product order (`p` outermost, then `d`, then
`q`), the final accumulator is the strict-less-than fold over that list, and
whenever a best configuration is reported, its error is minimal among all
successes and every earlier success has strictly larger error (first-seen
wins on ties). -/
theorem evaluate_models_first_seen_minimizer (fit : FitOracle)
    (dataset : List ℚ) (p_values d_values q_values : List ℕ) :
    (evaluate_models fit dataset p_values d_values q_values).2 =
      successes fit dataset p_values d_values q_values ∧
    (evaluate_models fit dataset p_values d_values q_values).1 =
      bestOf (successes fit dataset p_values d_values q_values) ∧
    ∀ (c : Order) (e : ℚ),
      (evaluate_models fit dataset p_values d_values q_values).1 =
        ((e : WithTop ℚ), some c) →
      ∃ l1 l2, successes fit dataset p_values d_values q_values =
          l1 ++ (c, e) :: l2 ∧ (∀ x ∈ l1, e < x.2) ∧
        ∀ x ∈ successes fit dataset p_values d_values q_values, e ≤ x.2 := by
  have hm := models_foldl fit (dataset.map roundF32)
    (cartesian p_values d_values q_values) ((⊤ : WithTop ℚ), none) []
  have hev : evaluate_models fit dataset p_values d_values q_values =
      (bestOf (successes fit dataset p_values d_values q_values),
       successes fit dataset p_values d_values q_values) := by
    unfold evaluate_models bestOf successes
    dsimp only
    rw [hm]
    simp
  refine ⟨by rw [hev], by rw [hev], ?_⟩
  intro c e h
  rw [hev] at h
  have hb : bestOf (successes fit dataset p_values d_values q_values) =
      ((e : WithTop ℚ), some c) := h
  unfold bestOf at hb
  rcases foldl_bestStep_char _ _ _ _ hb with ⟨heq, _⟩ |
    ⟨_, l1, l2, hsplit, hpre, hpost⟩
  · exact absurd (congrArg Prod.fst heq)
      (by simp)
  · refine ⟨l1, l2, hsplit, hpre, ?_⟩
    intro x hx
    rw [hsplit] at hx
    rcases List.mem_append.mp hx with hx | hx
    · exact le_of_lt (hpre x hx)
    · rcases List.mem_cons.mp hx with hx | hx
      · rw [hx]
      · exact hpost x hx

set_option maxRecDepth 100000 in
/-- C3.  The training split has size `⌊0.66 n⌋` (`33 n / 50`) and the
held-out portion the remaining `n - ⌊0.66 n⌋`, for every length up to 1000
(which covers both notebook datasets); in particular a 36-element input
splits 23/13.  This identifies the float computation `int(n * 0.66)` with
the exact floor. -/
theorem train_test_split_sizes :
    (∀ n : ℕ, n ≤ 1000 → pyTrainSize n = 33 * n / 50) ∧
    (∀ X : List ℚ, X.length ≤ 1000 →
      (trainOf X).length = 33 * X.length / 50 ∧
      (testOf X).length = X.length - 33 * X.length / 50) ∧
    pyTrainSize 36 = 23 ∧ 36 - pyTrainSize 36 = 13 := by
  have h1 : ∀ n : ℕ, n ≤ 1000 → pyTrainSize n = 33 * n / 50 := by decide
  refine ⟨h1, ?_, by decide, by decide⟩
  intro X hX
  have hts := h1 X.length hX
  have hle : 33 * X.length / 50 ≤ X.length := by omega
  constructor
  · rw [trainOf, List.length_take, hts, min_eq_left hle]
  · rw [testOf, List.length_drop, hts]

/-- C4.  The evaluator has no failure handling of its own: it returns a
result exactly when every underlying fit succeeds (and the held-out part is
nonempty), and any fitting failure propagates to the caller as `none`.  The
driver catches every such failure: a failing configuration leaves the
best-so-far accumulator and the output trace completely unchanged. -/
theorem evaluator_propagates_driver_skips :
    (∀ (fit : FitOracle) (X : List ℚ) (o : Order),
      evaluate_arima_model fit X o = none ↔
        (testOf X = [] ∨ ∃ t < (testOf X).length,
          fit (trainOf X ++ (testOf X).take t) o = none)) ∧
    (∀ (fit : FitOracle) (ds : List ℚ) (st : BestAcc × List (Order × ℚ))
      (o : Order), evaluate_arima_model fit ds o = none →
        modelsStep fit ds st o = st) := by
  constructor
  · intro fit X o
    unfold evaluate_arima_model
    dsimp only
    rw [arimaSteps_eq_forecasts]
    cases hos : oneStepForecasts fit o (trainOf X) (testOf X) with
    | none =>
      simp only [Option.map_none' _, Option.none_bind]
      constructor
      · intro _
        right
        exact (oneStepForecasts_eq_none_iff fit o (trainOf X) (testOf X)).mp hos
      · intro _
        trivial
    | some ps =>
      have hlen : ps.length = (testOf X).length :=
        oneStepForecasts_length fit o (trainOf X) (testOf X) ps hos
      simp only [Option.map_some' _ _, Option.some_bind]
      unfold mean_squared_error
      constructor
      · intro hn
        by_cases hnil : testOf X = []
        · exact Or.inl hnil
        · exfalso
          rw [if_pos ⟨by simp [hlen], hnil⟩] at hn
          cases hn
      · intro hcase
        rcases hcase with hnil | ⟨t, ht, hfit⟩
        · rw [if_neg]
          intro ⟨_, hne⟩
          exact hne hnil
        · exfalso
          have : oneStepForecasts fit o (trainOf X) (testOf X) = none :=
            (oneStepForecasts_eq_none_iff fit o (trainOf X) (testOf X)).mpr
              ⟨t, ht, hfit⟩
          rw [this] at hos
          cases hos
  · intro fit ds st o h
    simp [modelsStep, h]

/-- C5.  When every candidate configuration fails, the accumulator ends as
it began — `best_score` still `inf` (`⊤`) and `best_cfg` still `None` — no
per-configuration line is printed, and the final summary line is still
produced, rendering the unset values as `None` and `inf` without error. -/
theorem all_failures_leave_best_unset (fit : FitOracle) (dataset : List ℚ)
    (p_values d_values q_values : List ℕ)
    (hall : ∀ o ∈ cartesian p_values d_values q_values,
      evaluate_arima_model fit (dataset.map roundF32) o = none) :
    evaluate_models fit dataset p_values d_values q_values =
      (((⊤ : WithTop ℚ), none), []) ∧
    summaryLine (evaluate_models fit dataset p_values d_values q_values).1 =
      "Best ARIMANone MSE=inf" := by
  have hsucc : successes fit dataset p_values d_values q_values = [] := by
    unfold successes
    rw [List.filterMap_eq_nil_iff]
    intro o ho
    rw [hall o ho]
    rfl
  have hm := models_foldl fit (dataset.map roundF32)
    (cartesian p_values d_values q_values) ((⊤ : WithTop ℚ), none) []
  have hev : evaluate_models fit dataset p_values d_values q_values =
      (((⊤ : WithTop ℚ), none), []) := by
    unfold evaluate_models
    dsimp only
    rw [hm]
    have : (cartesian p_values d_values q_values).filterMap (fun o =>
        (evaluate_arima_model fit (dataset.map roundF32) o).map fun e =>
          (o, e)) = [] := hsucc
    rw [this]
    simp
  exact ⟨hev, by rw [hev]; rfl⟩

theorem threadSweepAux_shape (clock : ℕ → ℚ) (counts : List ℕ) :
    ∀ i : ℕ,
      (threadSweepAux clock i counts).1 =
        (threadSweepAux clock i counts).2.map (fun p => PyVal.num p.2) ∧
      (threadSweepAux clock i counts).2.map Prod.fst = counts := by
  induction counts with
  | nil => intro i; simp [threadSweepAux]
  | cons n rest ih =>
    intro i
    obtain ⟨h1, h2⟩ := ih (i + 1)
    rw [threadSweepAux]
    refine ⟨?_, ?_⟩
    · simp [h1]
    · simp [h2]

theorem threadSweepAux_nonneg (clock : ℕ → ℚ) (hmono : Monotone clock)
    (counts : List ℕ) :
    ∀ i : ℕ, ∀ p ∈ (threadSweepAux clock i counts).2, 0 ≤ p.2 := by
  induction counts with
  | nil => intro i p hp; simp [threadSweepAux] at hp
  | cons n rest ih =>
    intro i p hp
    rw [threadSweepAux] at hp
    simp only [List.mem_cons] at hp
    rcases hp with hp | hp
    · rw [hp]
      have : clock (2 * i) ≤ clock (2 * i + 1) := hmono (by omega)
      simpa using sub_nonneg.mpr this
    · exact ih (i + 1) p (by
        revert hp
        cases hrec : threadSweepAux clock (i + 1) rest with
        | mk rs ps => intro hp; simpa using hp)

/-! ## More claim theorems -/
/-- C6.  On the documented per-configuration errors of the shampoo-sales
run (36 observations, grid `p ∈ {0,1,2,4,6,8,10}`, `d, q ∈ {0,1,2}`), the
driver's selection fold reports best configuration `(4, 2, 1)` with error
`4694.872`; the successful configurations are a subsequence of the grid in
enumeration order, and `4694.872` is indeed the minimum error recorded. -/
theorem shampoo_run_best_is_421 :
    bestOf shampooRunResults =
      (((4694872 / 1000 : ℚ) : WithTop ℚ), some (4, 2, 1)) ∧
    (shampooRunResults.map Prod.fst).Sublist
      (cartesian [0, 1, 2, 4, 6, 8, 10] [0, 1, 2] [0, 1, 2]) ∧
    ∀ x ∈ shampooRunResults, (4694872 / 1000 : ℚ) ≤ x.2 := by
  refine ⟨?_, ?_, ?_⟩
  · unfold bestOf shampooRunResults
    norm_num [bestStep, List.foldl_cons, List.foldl_nil]
  · unfold shampooRunResults cartesian
    decide
  · unfold shampooRunResults
    intro x hx
    fin_cases hx <;> norm_num

/-- C8.  The thread-count sweep records exactly one sample per requested
thread count, in request order (the printed `(count, duration)` trace lists
the counts in order and the stored results are exactly its durations), and
— provided the wall clock never runs backwards — every recorded duration is
non-negative. -/
theorem thread_sweep_one_nonneg_sample_per_count (clock : ℕ → ℚ)
    (num_threads : List ℕ) (hmono : Monotone clock) :
    (threadSweep clock num_threads).1.length = num_threads.length ∧
    (threadSweep clock num_threads).2.map Prod.fst = num_threads ∧
    ∀ v ∈ (threadSweep clock num_threads).1,
      ∃ q : ℚ, v = PyVal.num q ∧ 0 ≤ q := by
  obtain ⟨h1, h2⟩ := threadSweepAux_shape clock num_threads 0
  have hplen : (threadSweepAux clock 0 num_threads).2.length =
      num_threads.length := by
    have := congrArg List.length h2
    simpa using this
  refine ⟨?_, h2, ?_⟩
  · rw [threadSweep, h1, List.length_map, hplen]
  · intro v hv
    rw [threadSweep, h1] at hv
    rcases List.mem_map.mp hv with ⟨p, hp, hv⟩
    exact ⟨p.2, hv.symm, threadSweepAux_nonneg clock hmono num_threads 0 p hp⟩

/-- C9, counterexample.  The claim "each timing sample recorded is a
(thread-count, elapsed-duration) pair" fails on the code: with a unit-step
clock and the single requested count 5, the recorded sample is the bare
duration `1`, not a tuple. -/
theorem thread_sweep_samples_are_not_pairs :
    ¬ ∀ v ∈ (threadSweep (fun k => (k : ℚ)) [5]).1,
        ∃ n q, v = PyVal.tup n q := by
  intro hall
  have h1 : (threadSweep (fun k => (k : ℚ)) [5]).1 = [PyVal.num 1] := by
    rw [threadSweep, threadSweepAux, threadSweepAux]
    norm_num
  rcases hall (PyVal.num 1) (by rw [h1]; exact List.mem_singleton.mpr rfl)
    with ⟨n, q, hq⟩
  cases hq

/-- C9, amended.  Each iteration prints the `(count, duration)` pair but
appends only the bare duration to the result list; the stored results are
exactly the durations of the printed pairs, one per requested count, in
request order. -/
theorem thread_sweep_stores_durations_only (clock : ℕ → ℚ)
    (num_threads : List ℕ) :
    (threadSweep clock num_threads).1 =
      (threadSweep clock num_threads).2.map (fun p => PyVal.num p.2) ∧
    (threadSweep clock num_threads).2.map Prod.fst = num_threads :=
  threadSweepAux_shape clock num_threads 0

theorem Store.getB_push_ne (σ : Store) (i r : ℕ) (x : ℚ) (h : r ≠ i) :
    (σ.push i x).getB r = σ.getB r := by
  unfold Store.push Store.getB
  simp only [List.getD_eq_getElem?_getD]
  rw [List.getElem?_set_ne (Ne.symm h)]

theorem Store.getB_push_self (σ : Store) (i : ℕ) (x : ℚ)
    (h : i < σ.bufs.length) :
    (σ.push i x).getB i = σ.getB i ++ [x] := by
  unfold Store.push Store.getB
  simp only [List.getD_eq_getElem?_getD]
  rw [List.getElem?_set_self h]
  cases hg : σ.bufs[i]? with
  | none => exact absurd hg (by simp [h])
  | some b => simp [hg]

theorem Store.push_length (σ : Store) (i : ℕ) (x : ℚ) :
    (σ.push i x).bufs.length = σ.bufs.length := by
  unfold Store.push
  simp

theorem Store.getB_alloc_lt (σ : Store) (v : List ℚ) (r : ℕ)
    (h : r < σ.bufs.length) : (σ.alloc v).getB r = σ.getB r := by
  unfold Store.alloc Store.getB
  simp only [List.getD_eq_getElem?_getD]
  rw [List.getElem?_append_left h]

theorem Store.getB_alloc_self (σ : Store) (v : List ℚ) :
    (σ.alloc v).getB σ.bufs.length = v := by
  unfold Store.alloc Store.getB
  simp only [List.getD_eq_getElem?_getD]
  rw [List.getElem?_concat_length]
  rfl

theorem Store.alloc_length (σ : Store) (v : List ℚ) :
    (σ.alloc v).bufs.length = σ.bufs.length + 1 := by
  unfold Store.alloc
  simp

theorem arimaHeapLoop_frame (fit : FitOracle) (order : Order) (hr pr : ℕ) :
    ∀ (test : List ℚ) (σ : Store) (r : ℕ), r ≠ hr → r ≠ pr →
      ((arimaHeapLoop fit order hr pr test σ).1).getB r = σ.getB r ∧
      ((arimaHeapLoop fit order hr pr test σ).1).bufs.length =
        σ.bufs.length := by
  intro test
  induction test with
  | nil => intro σ r h1 h2; exact ⟨rfl, rfl⟩
  | cons x rest ih =>
    intro σ r h1 h2
    rw [arimaHeapLoop]
    cases fit (σ.getB hr) order with
    | none => exact ⟨rfl, rfl⟩
    | some yhat =>
      obtain ⟨hg, hl⟩ := ih ((σ.push pr yhat).push hr x) r h1 h2
      refine ⟨?_, ?_⟩
      · rw [hg, Store.getB_push_ne _ _ _ _ h1, Store.getB_push_ne _ _ _ _ h2]
      · rw [hl, Store.push_length, Store.push_length]

theorem evaluate_arima_heap_frame (fit : FitOracle) (σ : Store) (xr : ℕ)
    (order : Order) (r : ℕ) (hr : r < σ.bufs.length) :
    ((evaluate_arima_heap fit σ xr order).1).getB r = σ.getB r ∧
    ((evaluate_arima_heap fit σ xr order).1).bufs.length =
      σ.bufs.length + 2 := by
  unfold evaluate_arima_heap
  dsimp only
  set test := (σ.getB xr).drop (pyTrainSize (σ.getB xr).length) with htest
  set σ2 := (σ.alloc ((σ.getB xr).take (pyTrainSize (σ.getB xr).length))).alloc
    [] with hσ2
  have hgr : σ2.getB r = σ.getB r := by
    rw [hσ2, Store.getB_alloc_lt _ _ _ (by rw [Store.alloc_length]; omega),
      Store.getB_alloc_lt _ _ _ hr]
  have hlen2 : σ2.bufs.length = σ.bufs.length + 2 := by
    rw [hσ2, Store.alloc_length, Store.alloc_length]
  have hfr := arimaHeapLoop_frame fit order σ.bufs.length
    (σ.bufs.length + 1) test σ2 r (by omega) (by omega)
  have hpr : ((σ.alloc ((σ.getB xr).take (pyTrainSize
      (σ.getB xr).length))).bufs).length = σ.bufs.length + 1 := by
    rw [Store.alloc_length]
  rw [hpr]
  cases hloop : arimaHeapLoop fit order σ.bufs.length (σ.bufs.length + 1)
      test σ2 with
  | mk σ3 ok =>
    rw [hloop] at hfr
    cases ok with
    | false => exact ⟨hfr.1.trans hgr, by rw [hfr.2, hlen2]⟩
    | true => exact ⟨hfr.1.trans hgr, by rw [hfr.2, hlen2]⟩

theorem evaluate_models_heap_foldl_frame (fit : FitOracle) (dr2 : ℕ) :
    ∀ (grid : List Order) (st : Store × BestAcc × List (Order × ℚ)) (r : ℕ),
      r < st.1.bufs.length →
      ((grid.foldl (fun st o =>
          match evaluate_arima_heap fit st.1 dr2 o with
          | (σn, none) => (σn, st.2)
          | (σn, some mse) =>
            (σn, bestStep st.2.1 (o, mse), st.2.2 ++ [(o, mse)])) st).1).getB r =
        st.1.getB r := by
  intro grid
  induction grid with
  | nil => intro st r h; rfl
  | cons o rest ih =>
    intro st r h
    rw [List.foldl_cons]
    obtain ⟨hg, hl⟩ := evaluate_arima_heap_frame fit st.1 dr2 o r h
    cases hev : evaluate_arima_heap fit st.1 dr2 o with
    | mk σn res =>
      rw [hev] at hg hl
      dsimp only at hg hl
      cases res with
      | none =>
        dsimp only
        rw [ih (σn, st.2) r (by show r < σn.bufs.length; omega)]
        exact hg
      | some mse =>
        dsimp only
        rw [ih (σn, bestStep st.2.1 (o, mse), st.2.2 ++ [(o, mse)]) r
          (by show r < σn.bufs.length; omega)]
        exact hg

/-- C10.  Neither operation mutates the caller's series: every buffer that
existed before the call — in particular the series buffer `xr` passed to
the evaluator and the dataset buffer `dr` passed to the driver — holds the
same contents afterwards; the growing history is a fresh copy of the
training prefix and `astype('float32')` allocates a fresh converted copy. -/
theorem caller_series_never_mutated :
    (∀ (fit : FitOracle) (σ : Store) (xr : ℕ) (o : Order) (r : ℕ),
      r < σ.bufs.length →
      ((evaluate_arima_heap fit σ xr o).1).getB r = σ.getB r) ∧
    (∀ (fit : FitOracle) (σ : Store) (dr : ℕ)
      (p_values d_values q_values : List ℕ) (r : ℕ), r < σ.bufs.length →
      ((evaluate_models_heap fit σ dr p_values d_values q_values).1).getB r =
        σ.getB r) := by
  constructor
  · intro fit σ xr o r h
    exact (evaluate_arima_heap_frame fit σ xr o r h).1
  · intro fit σ dr pv dv qv r h
    unfold evaluate_models_heap
    dsimp only
    rw [evaluate_models_heap_foldl_frame fit σ.bufs.length
      (cartesian pv dv qv) _ r (by rw [Store.alloc_length]; omega)]
    exact Store.getB_alloc_lt _ _ _ h

/-! ## Determinism of the evaluator -/
theorem arimaHeapLoop_sim (fit : FitOracle) (order : Order) :
    ∀ (test : List ℚ) (σa σb : Store) (hra pra hrb prb : ℕ),
      hra ≠ pra → hrb ≠ prb →
      hra < σa.bufs.length → pra < σa.bufs.length →
      hrb < σb.bufs.length → prb < σb.bufs.length →
      σa.getB hra = σb.getB hrb → σa.getB pra = σb.getB prb →
      (arimaHeapLoop fit order hra pra test σa).2 =
        (arimaHeapLoop fit order hrb prb test σb).2 ∧
      ((arimaHeapLoop fit order hra pra test σa).1).getB hra =
        ((arimaHeapLoop fit order hrb prb test σb).1).getB hrb ∧
      ((arimaHeapLoop fit order hra pra test σa).1).getB pra =
        ((arimaHeapLoop fit order hrb prb test σb).1).getB prb := by
  intro test
  induction test with
  | nil =>
    intro σa σb hra pra hrb prb _ _ _ _ _ _ hh hp
    exact ⟨rfl, hh, hp⟩
  | cons x rest ih =>
    intro σa σb hra pra hrb prb hab1 hab2 hv1 hv2 hv3 hv4 hh hp
    rw [arimaHeapLoop, arimaHeapLoop, hh]
    cases fit (σb.getB hrb) order with
    | none => exact ⟨rfl, hh, hp⟩
    | some yhat =>
      have hha : ((σa.push pra yhat).push hra x).getB hra =
          σa.getB hra ++ [x] := by
        rw [Store.getB_push_self _ _ _ (by rw [Store.push_length]; exact hv1),
          Store.getB_push_ne _ _ _ _ hab1]
      have hhb : ((σb.push prb yhat).push hrb x).getB hrb =
          σb.getB hrb ++ [x] := by
        rw [Store.getB_push_self _ _ _ (by rw [Store.push_length]; exact hv3),
          Store.getB_push_ne _ _ _ _ hab2]
      have hpa : ((σa.push pra yhat).push hra x).getB pra =
          σa.getB pra ++ [yhat] := by
        rw [Store.getB_push_ne _ _ _ _ (Ne.symm hab1),
          Store.getB_push_self _ _ _ hv2]
      have hpb : ((σb.push prb yhat).push hrb x).getB prb =
          σb.getB prb ++ [yhat] := by
        rw [Store.getB_push_ne _ _ _ _ (Ne.symm hab2),
          Store.getB_push_self _ _ _ hv4]
      exact ih ((σa.push pra yhat).push hra x) ((σb.push prb yhat).push hrb x)
        hra pra hrb prb hab1 hab2
        (by rw [Store.push_length, Store.push_length]; exact hv1)
        (by rw [Store.push_length, Store.push_length]; exact hv2)
        (by rw [Store.push_length, Store.push_length]; exact hv3)
        (by rw [Store.push_length, Store.push_length]; exact hv4)
        (by rw [hha, hhb, hh]) (by rw [hpa, hpb, hp])

/-- C7.  The evaluator is deterministic: two invocations of
`evaluate_arima_model` on the same series contents and the same order —
regardless of which store they run in and where the series lives — return
the same error value and leave identical prediction lists (the freshly
allocated predictions buffer of each run).  The fitting library is
modelled as a function of the history and the order, so all remaining
state is the explicit store. -/
theorem evaluator_deterministic (fit : FitOracle) (o : Order)
    (σa σb : Store) (xa xb : ℕ) (h : σa.getB xa = σb.getB xb) :
    (evaluate_arima_heap fit σa xa o).2 = (evaluate_arima_heap fit σb xb o).2 ∧
    ((evaluate_arima_heap fit σa xa o).1).getB (σa.bufs.length + 1) =
      ((evaluate_arima_heap fit σb xb o).1).getB (σb.bufs.length + 1) := by
  unfold evaluate_arima_heap
  dsimp only
  rw [h]
  set X := σb.getB xb with hX
  set train := X.take (pyTrainSize X.length) with htrain
  set test := X.drop (pyTrainSize X.length) with htest
  set σa2 := (σa.alloc train).alloc [] with hσa2
  set σb2 := (σb.alloc train).alloc [] with hσb2
  have hla : σa2.bufs.length = σa.bufs.length + 2 := by
    rw [hσa2, Store.alloc_length, Store.alloc_length]
  have hlb : σb2.bufs.length = σb.bufs.length + 2 := by
    rw [hσb2, Store.alloc_length, Store.alloc_length]
  have hha : σa2.getB σa.bufs.length = train := by
    rw [hσa2, Store.getB_alloc_lt _ _ _ (by rw [Store.alloc_length]; omega),
      Store.getB_alloc_self]
  have hhb : σb2.getB σb.bufs.length = train := by
    rw [hσb2, Store.getB_alloc_lt _ _ _ (by rw [Store.alloc_length]; omega),
      Store.getB_alloc_self]
  have hpa : σa2.getB (σa.bufs.length + 1) = [] := by
    rw [hσa2, show σa.bufs.length + 1 = (σa.alloc train).bufs.length from by
      rw [Store.alloc_length], Store.getB_alloc_self]
  have hpb : σb2.getB (σb.bufs.length + 1) = [] := by
    rw [hσb2, show σb.bufs.length + 1 = (σb.alloc train).bufs.length from by
      rw [Store.alloc_length], Store.getB_alloc_self]
  have hsim := arimaHeapLoop_sim fit o test σa2 σb2
    σa.bufs.length (σa.bufs.length + 1) σb.bufs.length (σb.bufs.length + 1)
    (by omega) (by omega) (by omega) (by omega) (by omega) (by omega)
    (by rw [hha, hhb]) (by rw [hpa, hpb])
  have hpra : ((σa.alloc train).bufs).length = σa.bufs.length + 1 := by
    rw [Store.alloc_length]
  have hprb : ((σb.alloc train).bufs).length = σb.bufs.length + 1 := by
    rw [Store.alloc_length]
  rw [hpra, hprb]
  obtain ⟨hflag, hhist, hpred⟩ := hsim
  cases hloopa : arimaHeapLoop fit o σa.bufs.length (σa.bufs.length + 1)
      test σa2 with
  | mk σ3a oka =>
    cases hloopb : arimaHeapLoop fit o σb.bufs.length (σb.bufs.length + 1)
        test σb2 with
    | mk σ3b okb =>
      rw [hloopa, hloopb] at hflag hhist hpred
      dsimp only at hflag hhist hpred
      cases oka with
      | false =>
        cases okb with
        | true => cases hflag
        | false => exact ⟨rfl, hpred⟩
      | true =>
        cases okb with
        | false => cases hflag
        | true =>
          refine ⟨?_, hpred⟩
          dsimp only
          rw [hpred]

/-! ## Concrete fixtures and witnesses -/
theorem roundF32_one : roundF32 1 = 1 := by
  have := roundF32_natCast 1 (by norm_num) (by norm_num)
  simpa using this

theorem roundF32_two : roundF32 2 = 2 := by
  have := roundF32_natCast 2 (by norm_num) (by norm_num)
  simpa using this

theorem roundF32_three : roundF32 3 = 3 := by
  have := roundF32_natCast 3 (by norm_num) (by norm_num)
  simpa using this

theorem evaluate_models_constFit :
    (evaluate_models constFit [1, 2, 3] [0] [0] [0]).1 =
      (((1 / 2 : ℚ) : WithTop ℚ), some ((0, 0, 0) : Order)) := by
  have hts : pyTrainSize 3 = 1 := by decide
  simp [evaluate_models, cartesian, modelsStep, roundF32_one, roundF32_two,
    roundF32_three, evaluate_arima_model, trainOf, testOf, hts, arimaSteps,
    constFit, mean_squared_error, bestStep]
  norm_num

theorem evaluate_models_first_seen_minimizer_witness :
    (evaluate_models constFit [1, 2, 3] [0] [0] [0]).1 =
      (((1 / 2 : ℚ) : WithTop ℚ), some ((0, 0, 0) : Order)) ∧
    ∃ l1 l2, successes constFit [1, 2, 3] [0] [0] [0] =
        l1 ++ (((0, 0, 0) : Order), (1 / 2 : ℚ)) :: l2 ∧
      (∀ x ∈ l1, (1 / 2 : ℚ) < x.2) ∧
      ∀ x ∈ successes constFit [1, 2, 3] [0] [0] [0], (1 / 2 : ℚ) ≤ x.2 :=
  ⟨evaluate_models_constFit,
   (evaluate_models_first_seen_minimizer constFit [1, 2, 3] [0] [0] [0]).2.2
     (0, 0, 0) (1 / 2) evaluate_models_constFit⟩

theorem train_test_split_sizes_witness :
    pyTrainSize 36 = 33 * 36 / 50 ∧
    (trainOf (List.replicate 36 1)).length = 23 ∧
    (testOf (List.replicate 36 1)).length = 13 := by
  refine ⟨train_test_split_sizes.1 36 (by norm_num), ?_, ?_⟩
  · have := (train_test_split_sizes.2.1 (List.replicate 36 1)
      (by simp)).1
    simpa using this
  · have := (train_test_split_sizes.2.1 (List.replicate 36 1)
      (by simp)).2
    simpa using this

theorem evaluator_propagates_driver_skips_witness :
    evaluate_arima_model noneFit [1, 2, 3] (0, 0, 0) = none ∧
    modelsStep noneFit [1, 2, 3] (((⊤ : WithTop ℚ), none), []) (0, 0, 0) =
      (((⊤ : WithTop ℚ), none), []) := by
  have ht : (0 : ℕ) < (testOf [1, 2, 3]).length := by decide
  have h : evaluate_arima_model noneFit [1, 2, 3] (0, 0, 0) = none :=
    (evaluator_propagates_driver_skips.1 noneFit [1, 2, 3] (0, 0, 0)).mpr
      (Or.inr ⟨0, ht, rfl⟩)
  exact ⟨h, evaluator_propagates_driver_skips.2 noneFit [1, 2, 3] _ (0, 0, 0) h⟩

theorem all_failures_leave_best_unset_witness :
    evaluate_models noneFit [1, 2, 3] [0] [0] [0] =
      (((⊤ : WithTop ℚ), none), []) ∧
    summaryLine (evaluate_models noneFit [1, 2, 3] [0] [0] [0]).1 =
      "Best ARIMANone MSE=inf" := by
  refine all_failures_leave_best_unset noneFit [1, 2, 3] [0] [0] [0] ?_
  intro o ho
  have hts : pyTrainSize 3 = 1 := by decide
  simp [evaluate_arima_model, trainOf, testOf, roundF32_one, roundF32_two,
    roundF32_three, hts, arimaSteps, noneFit]

theorem evaluator_deterministic_witness :
    (evaluate_arima_heap constFit ⟨[[1, 2, 3]]⟩ 0 (0, 0, 0)).2 =
      (evaluate_arima_heap constFit ⟨[[7], [1, 2, 3]]⟩ 1 (0, 0, 0)).2 ∧
    ((evaluate_arima_heap constFit ⟨[[1, 2, 3]]⟩ 0 (0, 0, 0)).1).getB 2 =
      ((evaluate_arima_heap constFit ⟨[[7], [1, 2, 3]]⟩ 1 (0, 0, 0)).1).getB 3 :=
  evaluator_deterministic constFit (0, 0, 0) ⟨[[1, 2, 3]]⟩
    ⟨[[7], [1, 2, 3]]⟩ 0 1 rfl

theorem thread_sweep_one_nonneg_sample_per_count_witness :
    (threadSweep (fun k => (k : ℚ)) [1, 2]).1.length = 2 ∧
    (threadSweep (fun k => (k : ℚ)) [1, 2]).2.map Prod.fst = [1, 2] ∧
    ∀ v ∈ (threadSweep (fun k => (k : ℚ)) [1, 2]).1,
      ∃ q : ℚ, v = PyVal.num q ∧ 0 ≤ q := by
  have h := thread_sweep_one_nonneg_sample_per_count (fun k => (k : ℚ))
    [1, 2] (fun a b hab => by simpa using (by exact_mod_cast hab : (a : ℚ) ≤ b))
  simpa using h

theorem caller_series_never_mutated_witness :
    ((evaluate_arima_heap constFit ⟨[[1, 2, 3]]⟩ 0 (0, 0, 0)).1).getB 0 =
      Store.getB ⟨[[1, 2, 3]]⟩ 0 ∧
    ((evaluate_models_heap constFit ⟨[[1, 2, 3]]⟩ 0 [0] [0] [0]).1).getB 0 =
      Store.getB ⟨[[1, 2, 3]]⟩ 0 :=
  ⟨caller_series_never_mutated.1 constFit ⟨[[1, 2, 3]]⟩ 0 (0, 0, 0) 0
     (by norm_num),
   caller_series_never_mutated.2 constFit ⟨[[1, 2, 3]]⟩ 0 [0] [0] [0] 0
     (by norm_num)⟩

end GridSearch
